import Mathlib

/-!
Verification of the scrollrack card-recognition pipeline.

Shallow embedding of the core components cited by the specification:
the fixed-zone card detector (`cardDetection.service`), the two cache
tiers and rate-limited request queue (`scryfall.service`), the Otsu
automatic threshold (`image.service`), the OCR text normalizer
(`utils/textNormalization`), and the stability tracker state machine
(`hooks/useCardTracking`).  Timestamps are naturals (milliseconds),
JS floats are modelled as rationals, JS `null`-able timestamp refs as
naturals with `0` meaning unset (matching JS falsiness checks).
-/

namespace Scrollrack

/-! ## Card detection service (`cardDetection.service.ts`)

`detectCard` computes a fixed, centered, card-aspect zone from the frame
dimensions; whether a card is reported depends on the pixel heuristics
only through the boolean produced by `checkForContent`, which we take as
an input (`content`) since it is the result of sampling the live canvas.
-/

/-- JS `Math.round`: round half toward positive infinity. -/
def jsRound (q : ℚ) : ℤ := ⌊q + 1/2⌋

/-- `CARD_ASPECT_RATIO = 2.5 / 3.5`. -/
def CARD_ASPECT_RATIO : ℚ := (25 : ℚ) / 35

structure DetectedCard where
  x : ℤ
  y : ℤ
  width : ℤ
  height : ℤ
  confidence : ℚ
  aspectRatio : ℚ
  deriving DecidableEq, Repr

structure CardDetectionResult where
  detected : Bool
  card : Option DetectedCard
  deriving DecidableEq, Repr

/-- The fixed centered detection zone built by `detectCard` from the frame
dimensions (before rounding): height 65% of the frame, width from the card
aspect ratio, centered. -/
def detectionZone (width height : ℚ) : ℚ × ℚ × ℚ × ℚ :=
  let zoneHeight := height * (65 / 100)
  let zoneWidth := zoneHeight * CARD_ASPECT_RATIO
  let zoneX := (width - zoneWidth) / 2
  let zoneY := (height - zoneHeight) / 2
  (zoneX, zoneY, zoneWidth, zoneHeight)

/-- `detectCard`, with the pixel classifier's verdict (`checkForContent`,
including hysteresis) abstracted into the boolean `content`. -/
def detectCard (width height : ℚ) (content : Bool) : CardDetectionResult :=
  if width = 0 ∨ height = 0 then { detected := false, card := none }
  else
    let (zoneX, zoneY, zoneWidth, zoneHeight) := detectionZone width height
    if !content then { detected := false, card := none }
    else
      { detected := true
        card := some
          { x := jsRound zoneX
            y := jsRound zoneY
            width := jsRound zoneWidth
            height := jsRound zoneHeight
            confidence := 1
            aspectRatio := CARD_ASPECT_RATIO } }

/-! ## Scryfall service caches (`scryfall.service.ts`)

`CACHE_TTL = 24 * 60 * 60 * 1000`.  The in-process tier is a `Map`
(modelled as an association list); the durable tier is the IndexedDB
object store (also an association list keyed by `key`).  `getFromCache`
deletes a stale entry; `getFromPersistentCache` only resolves `null`.
-/

def CACHE_TTL : ℕ := 24 * 60 * 60 * 1000

structure CacheEntry (α : Type) where
  data : α
  timestamp : ℕ
  deriving DecidableEq, Repr

/-- In-process tier, `memoryCache : Map<string, {data, timestamp}>`. -/
abbrev MemCache (α : Type) := List (String × CacheEntry α)

def memGet {α : Type} (cache : MemCache α) (key : String) : Option (CacheEntry α) :=
  (cache.find? (fun kv => kv.1 = key)).map (·.2)

def memDelete {α : Type} (cache : MemCache α) (key : String) : MemCache α :=
  cache.filter (fun kv => kv.1 ≠ key)

def memSet {α : Type} (cache : MemCache α) (key : String) (e : CacheEntry α) : MemCache α :=
  (key, e) :: memDelete cache key

/-- `getFromCache`: fresh hit returns the data; a present-but-stale entry
is deleted and the read misses.  Returns the value and the updated tier. -/
def getFromCache {α : Type} (cache : MemCache α) (key : String) (now : ℕ) :
    Option α × MemCache α :=
  match memGet cache key with
  | some cached =>
      if now - cached.timestamp < CACHE_TTL then (some cached.data, cache)
      else (none, memDelete cache key)
  | none => (none, cache)

/-- `getFromPersistentCache`: a fresh hit also populates the memory tier;
otherwise it resolves `null`.  The durable store itself is returned
unchanged in every branch (the code never deletes from it on read). -/
def getFromPersistentCache {α : Type} (store : MemCache α) (mem : MemCache α)
    (key : String) (now : ℕ) : Option α × MemCache α × MemCache α :=
  match memGet store key with
  | some cached =>
      if now - cached.timestamp < CACHE_TTL then
        (some cached.data, store, memSet mem key cached)
      else (none, store, mem)
  | none => (none, store, mem)

/-! ## Scryfall request execution (`executeRequest`) and the queue -/

/-- Outcome classes of one HTTP attempt, as `executeRequest` distinguishes
them: success with a payload, a 429 rate-limit response, an error response
carrying Scryfall error details, or any other failure. -/
inductive HttpAttempt (α : Type) where
  | ok (value : α)
  | rateLimited
  | errWithDetails (details : String)
  | otherError
  deriving DecidableEq, Repr

/-- Result of `executeRequest`: the resolved payload or a thrown error. -/
inductive ReqOutcome (α : Type) where
  | success (value : α)
  | thrown (message : Option String)
  deriving DecidableEq, Repr

/-- `executeRequest`: on a 429 it sleeps 1 s and recursively retries the
same endpoint; any other response terminates.  The input list is the
sequence of responses the server returns for the successive attempts;
`none` means the response sequence was exhausted while still rate-limited. -/
def executeRequest {α : Type} : List (HttpAttempt α) → Option (ReqOutcome α)
  | [] => none
  | .ok v :: _ => some (.success v)
  | .rateLimited :: rest => executeRequest rest
  | .errWithDetails d :: _ => some (.thrown (some d))
  | .otherError :: _ => some (.thrown none)

/-- Number of HTTP attempts `executeRequest` issues on this response
sequence (each recursion is one more attempt). -/
def executeAttempts {α : Type} : List (HttpAttempt α) → ℕ
  | [] => 0
  | .rateLimited :: rest => 1 + executeAttempts rest
  | _ :: _ => 1

/-- Total back-off slept, 1000 ms per 429 received. -/
def executeSleep {α : Type} : List (HttpAttempt α) → ℕ
  | .rateLimited :: rest => 1000 + executeSleep rest
  | _ => 0

/-- Leading run of 429 responses. -/
def leading429 {α : Type} : List (HttpAttempt α) → ℕ
  | .rateLimited :: rest => 1 + leading429 rest
  | _ => 0

def MIN_REQUEST_DELAY : ℕ := 100

/-- `processQueue`: dispatch the queued requests in FIFO order.  State is
(`lastRequestTime`, current clock); each item carries the wall time its
`await request()` takes.  If less than `MIN_REQUEST_DELAY` has elapsed
since the previous dispatch the loop sleeps the difference first.
Returns each item paired with its dispatch time. -/
def processQueue {α : Type} (lastRequestTime now : ℕ) :
    List (α × ℕ) → List (α × ℕ)
  | [] => []
  | (item, dur) :: rest =>
      let t := if now - lastRequestTime < MIN_REQUEST_DELAY
               then lastRequestTime + MIN_REQUEST_DELAY else now
      (item, t) :: processQueue t (t + dur) rest

/-! ## Text normalization (`utils/textNormalization.ts`, rich version)

Strings are processed as `List Char`.  Each JS regex replace becomes one
list transformation, applied in source order.  JS string indices never
re-scan replaced output, which the structural recursions below reproduce
(lookahead/lookbehind read the original neighbours).  `Char.ofNat` codes
are used for the punctuation characters the pipeline folds.
-/

def apoChar : Char := Char.ofNat 39

def isAsciiLetter (c : Char) : Bool :=
  (decide ('a' ≤ c) && decide (c ≤ 'z')) || (decide ('A' ≤ c) && decide (c ≤ 'Z'))

def isAsciiLower (c : Char) : Bool := decide ('a' ≤ c) && decide (c ≤ 'z')

def isAsciiUpper (c : Char) : Bool := decide ('A' ≤ c) && decide (c ≤ 'Z')

/-- JS `\s` over the characters this pipeline can meet. -/
def wsChar (c : Char) : Bool :=
  c = ' ' || c = Char.ofNat 9 || c = Char.ofNat 10 ||
  c = Char.ofNat 13 || c = Char.ofNat 11 || c = Char.ofNat 12

/-- JS `String.prototype.toLowerCase` restricted to ASCII letters. -/
def jsToLower (c : Char) : Char :=
  if isAsciiUpper c then Char.ofNat (c.toNat + 32) else c

/-- `trim()`. -/
def jsTrim (l : List Char) : List Char :=
  ((l.dropWhile wsChar).reverse.dropWhile wsChar).reverse

/-- `replace(/^[([\]]+/, '')`. -/
def stripLeadBrackets (l : List Char) : List Char :=
  l.dropWhile (fun c => c = '(' || c = '[' || c = ']')

/-- The character class of `replace(/[|\\/_~*#@$%^&+=<>[\]{}()]/g, '')`. -/
def isArtifactChar (c : Char) : Bool :=
  c ∈ ['|', '\\', '/', '_', '~', '*', '#', '@', '$', '%', Char.ofNat 94,
       '&', '+', '=', '<', '>', '[', ']', Char.ofNat 123, Char.ofNat 125,
       '(', ')']

def removeArtifacts (l : List Char) : List Char :=
  l.filter (fun c => !isArtifactChar c)

/-- `replace(/0/g, 'O')`. -/
def zeroToO (l : List Char) : List Char :=
  l.map (fun c => if c = '0' then 'O' else c)

/-- `replace(/1(?=[a-zA-Z])/g, 'l')`: the lookahead reads the original
next character, and matching resumes after the replaced `1`. -/
def oneBeforeLetter : List Char → List Char
  | [] => []
  | c :: rest =>
      (if c = '1' && (match rest with
          | d :: _ => isAsciiLetter d
          | [] => false) then 'l' else c) :: oneBeforeLetter rest

/-- `replace(/(?<=[a-zA-Z])1/g, 'l')`: the lookbehind reads the original
previous character (`prev`), not a replacement. -/
def oneAfterLetter (prev : Char) : List Char → List Char
  | [] => []
  | c :: rest =>
      (if c = '1' && isAsciiLetter prev then 'l' else c) :: oneAfterLetter c rest

/-- `replace(/[‘’`´]/g, "'")` written with character codes. -/
def foldQuotes (l : List Char) : List Char :=
  l.map (fun c =>
    if c = Char.ofNat 8216 || c = Char.ofNat 8217 ||
       c = Char.ofNat 96 || c = Char.ofNat 180 then apoChar else c)

/-- `replace(/[“”«»]/g, '"')`. -/
def foldDoubleQuotes (l : List Char) : List Char :=
  l.map (fun c =>
    if c = Char.ofNat 8220 || c = Char.ofNat 8221 ||
       c = Char.ofNat 171 || c = Char.ofNat 187 then '"' else c)

/-- `replace(/[–—−]/g, '-')`. -/
def foldDashes (l : List Char) : List Char :=
  l.map (fun c =>
    if c = Char.ofNat 8211 || c = Char.ofNat 8212 ||
       c = Char.ofNat 8722 then '-' else c)

/-- `replace(/[.]{2,}/g, '')`: a maximal run of `n` dots is kept when
`n = 1` and removed when `n ≥ 2`; `n` counts the pending run. -/
def collapseDots (n : ℕ) : List Char → List Char
  | [] => if n = 1 then ['.'] else []
  | c :: rest =>
      if c = '.' then collapseDots (n + 1) rest
      else if n = 1 then '.' :: c :: collapseDots 0 rest
      else c :: collapseDots 0 rest

/-- `replace(/[,]{2,}/g, ',')`: any maximal run of commas leaves one. -/
def collapseCommas (n : ℕ) : List Char → List Char
  | [] => if n = 0 then [] else [',']
  | c :: rest =>
      if c = ',' then collapseCommas (n + 1) rest
      else if n = 0 then c :: collapseCommas 0 rest
      else ',' :: c :: collapseCommas 0 rest

/-- `replace(/\s+/g, ' ')`: any maximal whitespace run becomes a space. -/
def collapseWs (n : ℕ) : List Char → List Char
  | [] => if n = 0 then [] else [' ']
  | c :: rest =>
      if wsChar c then collapseWs (n + 1) rest
      else if n = 0 then c :: collapseWs 0 rest
      else ' ' :: c :: collapseWs 0 rest

/-- `replace(/^[^a-zA-Z]+/, '')`. -/
def dropLeadNonLetter (l : List Char) : List Char :=
  l.dropWhile (fun c => !isAsciiLetter c)

/-- `replace(/[^a-zA-Z']+$/, '')` — trailing run, apostrophes kept. -/
def dropTrailGarbage (l : List Char) : List Char :=
  (l.reverse.dropWhile (fun c => !(isAsciiLetter c || c = apoChar))).reverse

/-- The character-level phase of `normalizeCardName`, replaces applied in
source order. -/
def charPipeline (l : List Char) : List Char :=
  dropTrailGarbage (dropLeadNonLetter (collapseWs 0 (collapseCommas 0
    (collapseDots 0 (foldDashes (foldDoubleQuotes (foldQuotes
      (oneAfterLetter ' ' (oneBeforeLetter (zeroToO (removeArtifacts
        (stripLeadBrackets (jsTrim l)))))))))))))

/-- `COMMON_WORDS` from the source (with `who's` spelled via its code). -/
def commonWords : List (List Char) :=
  (["a", "an", "the", "of", "in", "to", "for", "on", "at", "by", "or",
    "as", "is", "it", "and", "but", "not", "with", "from", "into", "upon",
    "over", "under", "through", "who", "what", "that", "this", "his",
    "her", "its", "my", "our", "your", "be", "no", "so", "up", "go", "do",
    "if", "me", "we", "he", "she", "us", "am", "el", "la", "le", "de",
    "von", "van", "der", "den", "das"].map String.data) ++
  [("who").data ++ [apoChar] ++ ("s").data]

/-- `word.split(' ')` / `String.prototype.split` with a single-character
separator: consecutive separators yield empty fields. -/
def splitOnChar (sep : Char) (l : List Char) : List (List Char) :=
  l.foldr
    (fun c acc =>
      if c = sep then [] :: acc
      else
        match acc with
        | w :: ws => (c :: w) :: ws
        | [] => [[c]])
    [[]]

/-- `/[a-zA-Z]'[a-zA-Z]/.test(word)`. -/
def hasApoBetweenLetters : List Char → Bool
  | [] => false
  | a :: rest =>
      (match rest with
       | b :: c :: _ => isAsciiLetter a && b = apoChar && isAsciiLetter c
       | _ => false) || hasApoBetweenLetters rest

/-- `/^[A-Z]?[a-z]+$/.test(p)`. -/
def capThenLower : List Char → Bool
  | [] => false
  | c :: rest =>
      (isAsciiUpper c && !rest.isEmpty && rest.all isAsciiLower) ||
      (isAsciiLower c && rest.all isAsciiLower)

/-- `/[a-z][A-Z]/.test(word)`. -/
def hasLowerUpper : List Char → Bool
  | [] => false
  | a :: rest =>
      (match rest with
       | b :: _ => isAsciiLower a && isAsciiUpper b
       | [] => false) || hasLowerUpper rest

/-- `/[A-Z][a-z][A-Z]/.test(word)`. -/
def hasUpperLowerUpper : List Char → Bool
  | [] => false
  | a :: rest =>
      (match rest with
       | b :: c :: _ => isAsciiUpper a && isAsciiLower b && isAsciiUpper c
       | _ => false) || hasUpperLowerUpper rest

/-- `/^[A-Z]{2,3}$/.test(word)`. -/
def allCaps23 (w : List Char) : Bool :=
  (w.length = 2 || w.length = 3) && w.all isAsciiUpper

/-- `word.replace(/['-]/g, '').toLowerCase()`. -/
def cleanedWord (w : List Char) : List Char :=
  (w.filter (fun c => !(c = apoChar || c = '-'))).map jsToLower

/-- `isLikelyManaGarbage(word, wordIndex)`. -/
def isLikelyManaGarbage (w : List Char) (wordIndex : ℕ) : Bool :=
  let cleanWord := cleanedWord w
  if commonWords.contains cleanWord || commonWords.contains (w.map jsToLower) then
    false
  else if hasApoBetweenLetters w then
    false
  else if w.contains '-' && 3 ≤ w.length &&
      ((splitOnChar '-' w).all fun p =>
        p.isEmpty || capThenLower p || commonWords.contains (p.map jsToLower)) then
    false
  else if cleanWord.length = 1 then
    !(cleanWord = [('a' : Char)] || cleanWord = [('i' : Char)] || cleanWord = [('o' : Char)])
  else if cleanWord.length = 2 then
    if commonWords.contains cleanWord then false
    else if w.all isAsciiLower && w.length = 2 && !commonWords.contains w then true
    else if hasLowerUpper w || hasUpperLowerUpper w then true
    else true
  else if cleanWord.length = 3 then
    if hasLowerUpper w then true
    else if 0 < wordIndex && allCaps23 w then true
    else false
  else false

/-- The token loop of `normalizeCardName`: drop garbage tokens, but stop
at the first garbage token once at least one real word was accepted.  The
boolean records whether the loop exited through the `break`. -/
def filterTokens (acc : List (List Char)) :
    List (List Char) → List (List Char) × Bool
  | [] => (acc, false)
  | w :: ws =>
      let isGarbage := isLikelyManaGarbage w acc.length
      if isGarbage && 0 < acc.length then (acc, true)
      else if isGarbage then filterTokens acc ws
      else filterTokens (acc ++ [w]) ws

/-- `cleanWords.join(' ')`. -/
def joinSp : List (List Char) → List Char
  | [] => []
  | [w] => w
  | w :: ws => w ++ ' ' :: joinSp ws

/-- `normalizeCardName` on character lists. -/
def normalizeChars (l : List Char) : List Char :=
  joinSp (filterTokens [] (splitOnChar ' ' (charPipeline l))).1

/-- `normalizeCardName`. -/
def normalizeCardName (s : String) : String :=
  String.mk (normalizeChars s.data)

/-- `(normalized.match(/[a-zA-Z]/g) || []).length`. -/
def letterCount (l : List Char) : ℕ :=
  (l.filter isAsciiLetter).length

/-- `ocrText.split(/[\n\r]+/).map(trim).filter(Boolean)`: splitting on a
run of newline characters never produces more fields than splitting on
each one and discarding empties, and the empties are discarded here. -/
def nonEmptyLines (l : List Char) : List (List Char) :=
  (((splitOnChar (Char.ofNat 10) l).map (splitOnChar (Char.ofNat 13))).flatten.map
      jsTrim).filter (fun x => !x.isEmpty)

/-- The first-line loop of `extractCardName`: first line whose
normalization has length ≥ 2 and at least 2 letters. -/
def firstGoodLine : List (List Char) → Option (List Char)
  | [] => none
  | line :: rest =>
      let normalized := normalizeChars line
      if 2 ≤ normalized.length && 2 ≤ letterCount normalized then
        some normalized
      else firstGoodLine rest

/-- `extractCardName`. -/
def extractCardName (s : String) : String :=
  match nonEmptyLines s.data with
  | [] => String.mk []
  | l₀ :: _ =>
      match firstGoodLine (nonEmptyLines s.data) with
      | some normalized => String.mk normalized
      | none => String.mk (normalizeChars l₀)

/-! ## Card tracking state machine (`hooks/useCardTracking.ts`)

`processFrame` translated as a pure step on the hook's mutable refs.
`stableStartTimeRef : number | null` becomes a natural with `0` for
`null`, matching the JS falsiness test `!stableStartTimeRef.current`.
Input per tick: the clock `now`, whether the video reports non-zero
dimensions (`frameReady`), and the detector verdict (`detected`).
Outputs: whether `onStable` fired and whether `onCardLost` fired.
-/

def CAPTURE_DELAY : ℕ := 300
def COOLDOWN_AFTER_CAPTURE : ℕ := 1500
def NO_CARD_THRESHOLD : ℕ := 8

inductive TrackingState where
  | noCard
  | tracking
  | stabilizing
  | stable
  | cooldown
  deriving DecidableEq, Repr

structure TrackState where
  trackingState : TrackingState
  lastCard : Bool
  stableStartTime : ℕ
  hasTriggered : Bool
  cooldownUntil : ℕ
  requireCardRemoval : Bool
  noCardCount : ℕ
  deriving DecidableEq, Repr

/-- The refs as `startTracking` resets them (a fresh tracker). -/
def initTrackState : TrackState :=
  { trackingState := .noCard
    lastCard := false
    stableStartTime := 0
    hasTriggered := false
    cooldownUntil := 0
    requireCardRemoval := false
    noCardCount := 0 }

structure TickOutput where
  fired : Bool
  cardLost : Bool
  deriving DecidableEq, Repr

def noEvents : TickOutput := { fired := false, cardLost := false }

/-- One `processFrame` invocation. -/
def processFrame (s : TrackState) (now : ℕ) (frameReady detected : Bool) :
    TrackState × TickOutput :=
  if !frameReady then (s, noEvents)
  else if now < s.cooldownUntil then
    ({ s with trackingState := .cooldown }, noEvents)
  else if detected then
    if s.requireCardRemoval then
      ({ s with trackingState := .cooldown }, noEvents)
    else
      let s := { s with noCardCount := 0, trackingState := .stabilizing }
      let s := if s.stableStartTime = 0 then { s with stableStartTime := now } else s
      let elapsed := now - s.stableStartTime
      if CAPTURE_DELAY ≤ elapsed && !s.hasTriggered then
        ({ s with trackingState := .stable
                  hasTriggered := true
                  cooldownUntil := now + COOLDOWN_AFTER_CAPTURE
                  requireCardRemoval := true
                  lastCard := true },
         { fired := true, cardLost := false })
      else ({ s with lastCard := true }, noEvents)
  else
    let s := { s with noCardCount := s.noCardCount + 1 }
    if NO_CARD_THRESHOLD ≤ s.noCardCount then
      let lost := s.trackingState ≠ .noCard ∧ s.trackingState ≠ .cooldown ∧ s.lastCard
      ({ s with requireCardRemoval := false
                trackingState := .noCard
                stableStartTime := 0
                hasTriggered := false
                lastCard := false },
       { fired := false, cardLost := decide lost })
    else (s, noEvents)

/-- State before tick `n`, driving the tracker with clock `t` and
detector stream `d` (frames always ready). -/
def stateAt (t : ℕ → ℕ) (d : ℕ → Bool) (s₀ : TrackState) : ℕ → TrackState
  | 0 => s₀
  | n + 1 => (processFrame (stateAt t d s₀ n) (t n) true (d n)).1

/-- Whether `onStable` fires on tick `n`. -/
def firedAt (t : ℕ → ℕ) (d : ℕ → Bool) (s₀ : TrackState) (n : ℕ) : Bool :=
  ((processFrame (stateAt t d s₀ n) (t n) true (d n)).2).fired

/-! ## Otsu automatic threshold (`image.service.ts`, `calculateOtsuThreshold`)

The RGBA buffer walk `for (i = 0; i < data.length; i += 4) histogram[data[i]]++`
is modelled by a list of the per-pixel 8-bit values.  JS float arithmetic
on the means and variances is modelled by exact rationals.
-/

/-- The 256-bin histogram of the pixel values. -/
def histOf (pixels : List (Fin 256)) : ℕ → ℕ :=
  fun v => (pixels.map Fin.val).count v

/-- `sum`: `Σ i·histogram[i]` over all 256 bins. -/
def otsuTotalSum (hist : ℕ → ℕ) : ℕ :=
  ∑ j ∈ Finset.range 256, j * hist j

/-- Shared between-class variance expression `wB·wF·(mB−mF)²` from the
body of the candidate loop: `mB = sumB/wB`, `mF = (sum − sumB)/wF` with
`wF = total − wB`. -/
def classVariance (total : ℕ) (sum : ℚ) (wB sumB : ℕ) : ℚ :=
  ((wB : ℚ)) * (((total - wB : ℕ) : ℚ)) *
    ((sumB : ℚ) / (wB : ℚ) - (sum - (sumB : ℚ)) / (((total - wB : ℕ) : ℚ))) *
    ((sumB : ℚ) / (wB : ℚ) - (sum - (sumB : ℚ)) / (((total - wB : ℕ) : ℚ)))

/-- The candidate loop of `calculateOtsuThreshold`: state is
(`wB`, `sumB`, `maxVariance`, `threshold`); `continue` while `wB = 0`,
`break` when `wF = 0`, update the threshold on strict improvement. -/
def otsuLoop (hist : ℕ → ℕ) (total : ℕ) (sum : ℚ) :
    List ℕ → ℕ → ℕ → ℚ → ℕ → ℕ
  | [], _, _, _, threshold => threshold
  | i :: rest, wB, sumB, maxVariance, threshold =>
      if wB + hist i = 0 then
        otsuLoop hist total sum rest (wB + hist i) sumB maxVariance threshold
      else if total - (wB + hist i) = 0 then threshold
      else if maxVariance <
          classVariance total sum (wB + hist i) (sumB + i * hist i) then
        otsuLoop hist total sum rest (wB + hist i) (sumB + i * hist i)
          (classVariance total sum (wB + hist i) (sumB + i * hist i)) i
      else
        otsuLoop hist total sum rest (wB + hist i) (sumB + i * hist i)
          maxVariance threshold

/-- `calculateOtsuThreshold` with the default threshold 128. -/
def calculateOtsuThreshold (pixels : List (Fin 256)) : ℕ :=
  otsuLoop (histOf pixels) pixels.length ((otsuTotalSum (histOf pixels) : ℕ) : ℚ)
    (List.range 256) 0 0 0 128

/-- Spec-side between-class variance of a candidate threshold `i`
(bin `i` belongs to the background class), taken as `0` when either
class is empty. -/
def betweenClassVariance (hist : ℕ → ℕ) (total : ℕ) (i : ℕ) : ℚ :=
  if (∑ j ∈ Finset.range (i + 1), hist j) = 0 ∨
      total - (∑ j ∈ Finset.range (i + 1), hist j) = 0 then 0
  else
    classVariance total ((otsuTotalSum hist : ℕ) : ℚ)
      (∑ j ∈ Finset.range (i + 1), hist j)
      (∑ j ∈ Finset.range (i + 1), j * hist j)

/-- Spec-side maximal between-class variance over the 256 candidates
(floored at zero). -/
def maxVariance256 (hist : ℕ → ℕ) (total : ℕ) : ℚ :=
  ((List.range 256).map (betweenClassVariance hist total)).foldl max 0

/-- Spec-side threshold, written from the specification's words: the
first candidate in `0..255` attaining the maximal between-class
variance, or the default 128 when no candidate attains a positive one. -/
def otsuSpecThreshold (hist : ℕ → ℕ) (total : ℕ) : ℕ :=
  if 0 < maxVariance256 hist total then
    ((List.range 256).find?
        (fun i => betweenClassVariance hist total i = maxVariance256 hist total)).getD 128
  else 128

/-- The bimodal test image: 40% of pixels at intensity 20, 60% at 220. -/
def bimodalPixels : List (Fin 256) :=
  List.replicate 4 (20 : Fin 256) ++ List.replicate 6 (220 : Fin 256)

/-! ## Theorems -/

/-- C10: whenever `detectCard` reports a detection on a frame with
non-zero dimensions, the returned card has confidence exactly 1 and the
fixed centered zone as its box (height 65% of the frame height, width
that height times the 2.5 : 3.5 card aspect ratio, centered), whatever
the pixel content; the pixels influence only the detected boolean. -/
theorem detect_fixed_zone_full_confidence (w h : ℚ) (content : Bool)
    (hw : w ≠ 0) (hh : h ≠ 0) :
    (detectCard w h content).detected = content ∧
    (detectCard w h content).card =
      (if content then
        some { x := jsRound ((w - h * (65 / 100) * CARD_ASPECT_RATIO) / 2)
               y := jsRound ((h - h * (65 / 100)) / 2)
               width := jsRound (h * (65 / 100) * CARD_ASPECT_RATIO)
               height := jsRound (h * (65 / 100))
               confidence := 1
               aspectRatio := CARD_ASPECT_RATIO }
       else none) := by
  have hwh : ¬ (w = 0 ∨ h = 0) := by tauto
  cases content <;> simp [detectCard, detectionZone, hwh]

/-- C10 witness: a 1280×720 frame with content detected yields the fixed
zone at full confidence. -/
theorem detect_fixed_zone_witness :
    (detectCard 1280 720 true).detected = true ∧
    (detectCard 1280 720 true).card =
      (if true then
        some { x := jsRound ((1280 - 720 * (65 / 100) * CARD_ASPECT_RATIO) / 2)
               y := jsRound ((720 - 720 * (65 / 100)) / 2)
               width := jsRound (720 * (65 / 100) * CARD_ASPECT_RATIO)
               height := jsRound ((720 : ℚ) * (65 / 100))
               confidence := 1
               aspectRatio := CARD_ASPECT_RATIO }
       else none) :=
  detect_fixed_zone_full_confidence 1280 720 true (by norm_num) (by norm_num)

/-- Deleting a key removes it from the association-list tier. -/
theorem memGet_memDelete {α : Type} (cache : MemCache α) (key : String) :
    memGet (memDelete cache key) key = none := by
  have h : ∀ kv ∈ memDelete cache key, ¬ (kv.1 = key) := by
    intro kv hkv
    have := (List.mem_filter.mp hkv).2
    simpa using this
  unfold memGet
  rw [List.find?_eq_none.mpr (by intro kv hkv; simpa using h kv hkv)]
  rfl

/-- C9 counterexample: the durable tier does not evict an expired entry
on the read that rejects it — after a stale read the entry is still in
the store, contradicting lazy eviction in both tiers. -/
theorem persistent_stale_not_evicted :
    (getFromPersistentCache
        [(("exact:bolt"), ({ data := 7, timestamp := 0 } : CacheEntry ℕ))] []
        ("exact:bolt") (CACHE_TTL + 1)).1 = none ∧
    memGet (getFromPersistentCache
        [(("exact:bolt"), ({ data := 7, timestamp := 0 } : CacheEntry ℕ))] []
        ("exact:bolt") (CACHE_TTL + 1)).2.1 ("exact:bolt") =
      some { data := 7, timestamp := 0 } := by
  constructor <;> decide

/-- C9 (amended): a read of an entry at least TTL old misses in both
tiers; the in-process tier evicts the expired entry on that read, while
the durable store is returned unchanged (its expired entry is only ever
replaced by a later successful fetch). -/
theorem stale_read_misses {α : Type} (cache store mem : MemCache α)
    (key : String) (now : ℕ) (e e' : CacheEntry α)
    (hmem : memGet cache key = some e) (hold : CACHE_TTL ≤ now - e.timestamp)
    (hstore : memGet store key = some e')
    (hold' : CACHE_TTL ≤ now - e'.timestamp) :
    (getFromCache cache key now).1 = none ∧
    memGet (getFromCache cache key now).2 key = none ∧
    (getFromPersistentCache store mem key now).1 = none ∧
    (getFromPersistentCache store mem key now).2.1 = store ∧
    (getFromPersistentCache store mem key now).2.2 = mem := by
  have h1 : ¬ (now - e.timestamp < CACHE_TTL) := by omega
  have h2 : ¬ (now - e'.timestamp < CACHE_TTL) := by omega
  refine ⟨?_, ?_, ?_, ?_, ?_⟩ <;>
    simp [getFromCache, getFromPersistentCache, hmem, hstore, h1, h2,
      memGet_memDelete]

/-- C9 witness: a stale entry (age `TTL`) read at time `TTL` misses in
both tiers, is evicted from the memory tier, and survives in the store. -/
theorem stale_read_misses_witness :
    (getFromCache [(("exact:bolt"),
        ({ data := 7, timestamp := 0 } : CacheEntry ℕ))] ("exact:bolt")
        CACHE_TTL).1 = none ∧
    memGet (getFromCache [(("exact:bolt"),
        ({ data := 7, timestamp := 0 } : CacheEntry ℕ))] ("exact:bolt")
        CACHE_TTL).2 ("exact:bolt") = none ∧
    (getFromPersistentCache [(("exact:bolt"),
        ({ data := 7, timestamp := 0 } : CacheEntry ℕ))] [] ("exact:bolt")
        CACHE_TTL).1 = none ∧
    (getFromPersistentCache [(("exact:bolt"),
        ({ data := 7, timestamp := 0 } : CacheEntry ℕ))] [] ("exact:bolt")
        CACHE_TTL).2.1 =
      [(("exact:bolt"), ({ data := 7, timestamp := 0 } : CacheEntry ℕ))] ∧
    (getFromPersistentCache [(("exact:bolt"),
        ({ data := 7, timestamp := 0 } : CacheEntry ℕ))] [] ("exact:bolt")
        CACHE_TTL).2.2 = ([] : MemCache ℕ) :=
  stale_read_misses
    [(("exact:bolt"), ({ data := 7, timestamp := 0 } : CacheEntry ℕ))]
    [(("exact:bolt"), ({ data := 7, timestamp := 0 } : CacheEntry ℕ))] []
    ("exact:bolt") CACHE_TTL { data := 7, timestamp := 0 }
    { data := 7, timestamp := 0 } (by decide) (by decide) (by decide) (by decide)

/-- C4 counterexample: two consecutive 429 responses followed by a
success make `executeRequest` issue three attempts — the same request is
retried twice, not exactly once. -/
theorem retry_not_limited_to_one :
    executeAttempts ([HttpAttempt.rateLimited, HttpAttempt.rateLimited,
      HttpAttempt.ok (0 : ℕ)]) = 3 ∧
    ¬ executeAttempts ([HttpAttempt.rateLimited, HttpAttempt.rateLimited,
      HttpAttempt.ok (0 : ℕ)]) ≤ 2 := by
  constructor <;> decide

/-- C4 (amended): every 429 response makes `executeRequest` sleep 1 s and
retry the same request; the retries repeat for as long as 429s continue
(they are not capped at one), and the request resolves exactly as the
first non-429 response dictates — the surrounding lookup sequence is
never re-entered, as the retry loop is internal to the single request. -/
theorem executeRequest_retries_until_non429 {α : Type} (n : ℕ)
    (a : HttpAttempt α) (rest : List (HttpAttempt α))
    (ha : a ≠ HttpAttempt.rateLimited) :
    executeAttempts (List.replicate n HttpAttempt.rateLimited ++ a :: rest) =
      n + 1 ∧
    executeSleep (List.replicate n HttpAttempt.rateLimited ++ a :: rest) =
      1000 * n ∧
    executeRequest (List.replicate n HttpAttempt.rateLimited ++ a :: rest) =
      executeRequest [a] := by
  induction n with
  | zero =>
      refine ⟨?_, ?_, ?_⟩ <;>
        cases a <;> simp_all [executeAttempts, executeSleep, executeRequest]
  | succ m ih =>
      obtain ⟨ih1, ih2, ih3⟩ := ih
      have e1 : executeAttempts (HttpAttempt.rateLimited ::
          (List.replicate m HttpAttempt.rateLimited ++ a :: rest)) =
          1 + executeAttempts
            (List.replicate m HttpAttempt.rateLimited ++ a :: rest) := rfl
      have e2 : executeSleep (HttpAttempt.rateLimited ::
          (List.replicate m HttpAttempt.rateLimited ++ a :: rest)) =
          1000 + executeSleep
            (List.replicate m HttpAttempt.rateLimited ++ a :: rest) := rfl
      have e3 : executeRequest (HttpAttempt.rateLimited ::
          (List.replicate m HttpAttempt.rateLimited ++ a :: rest)) =
          executeRequest
            (List.replicate m HttpAttempt.rateLimited ++ a :: rest) := rfl
      refine ⟨?_, ?_, ?_⟩
      · rw [List.replicate_succ, List.cons_append, e1, ih1]
        omega
      · rw [List.replicate_succ, List.cons_append, e2, ih2]
        ring
      · rw [List.replicate_succ, List.cons_append, e3, ih3]

/-- Dispatch preserves the queued items and their order. -/
theorem processQueue_map_fst {α : Type} :
    ∀ (items : List (α × ℕ)) (last now : ℕ),
      (processQueue last now items).map Prod.fst = items.map Prod.fst := by
  intro items
  induction items with
  | nil => intro last now; rfl
  | cons p rest ih =>
      intro last now
      obtain ⟨item, dur⟩ := p
      simp [processQueue, ih]

/-- Dispatch times are spaced by at least `MIN_REQUEST_DELAY`, and the
first dispatch is at least that delay after the previous request time. -/
theorem processQueue_spacing {α : Type} :
    ∀ (items : List (α × ℕ)) (last now : ℕ),
      (processQueue last now items).Chain'
          (fun a b => a.2 + MIN_REQUEST_DELAY ≤ b.2) ∧
        ∀ x ∈ (processQueue last now items).head?,
          last + MIN_REQUEST_DELAY ≤ x.2 := by
  intro items
  induction items with
  | nil =>
      intro last now
      exact ⟨List.chain'_nil, by intro x hx; simp [processQueue] at hx⟩
  | cons p rest ih =>
      intro last now
      obtain ⟨item, dur⟩ := p
      simp only [processQueue]
      set t := if now - last < MIN_REQUEST_DELAY
               then last + MIN_REQUEST_DELAY else now with ht
      have htle : last + MIN_REQUEST_DELAY ≤ t := by
        rw [ht]
        simp only [MIN_REQUEST_DELAY]
        split <;> omega
      obtain ⟨ihChain, ihHead⟩ := ih t (t + dur)
      refine ⟨List.chain'_cons'.mpr ⟨?_, ihChain⟩, ?_⟩
      · intro y hy
        exact ihHead y hy
      · intro x hx
        simp only [List.head?_cons, Option.mem_def, Option.some.injEq] at hx
        subst hx
        exact htle

/-- C4 witness: two 429s before a success produce three attempts, two
seconds of back-off, and the success's payload. -/
theorem executeRequest_retries_until_non429_witness :
    executeAttempts (List.replicate 2 HttpAttempt.rateLimited ++
      HttpAttempt.ok (5 : ℕ) :: []) = 2 + 1 ∧
    executeSleep (List.replicate 2 HttpAttempt.rateLimited ++
      HttpAttempt.ok (5 : ℕ) :: []) = 1000 * 2 ∧
    executeRequest (List.replicate 2 HttpAttempt.rateLimited ++
      HttpAttempt.ok (5 : ℕ) :: []) = executeRequest [HttpAttempt.ok 5] :=
  executeRequest_retries_until_non429 2 (HttpAttempt.ok 5) [] (by decide)

/-- C5: the request queue dispatches items in FIFO order and any two
consecutive dispatch times are at least `MIN_REQUEST_DELAY` apart,
whatever the clock, the previous request time, and the durations of the
awaited requests; in particular 15 queued lookups dispatch in order with
spacing at least 100 ms. -/
theorem queue_fifo_min_spacing {α : Type} (last now : ℕ)
    (items : List (α × ℕ)) :
    (processQueue last now items).map Prod.fst = items.map Prod.fst ∧
    (processQueue last now items).Chain'
      (fun a b => a.2 + MIN_REQUEST_DELAY ≤ b.2) ∧
    (processQueue 0 0 ((List.range 15).map (fun i => (i, 0)))).map
        Prod.fst = List.range 15 ∧
    (processQueue 0 0 ((List.range 15).map (fun i => (i, 0)))).Chain'
      (fun a b => a.2 + MIN_REQUEST_DELAY ≤ b.2) := by
  refine ⟨processQueue_map_fst items last now,
    (processQueue_spacing items last now).1, ?_, ?_⟩
  · rw [processQueue_map_fst, List.map_map]
    exact List.map_id _
  · exact (processQueue_spacing ((List.range 15).map (fun i => (i, 0))) 0 0).1

/-- C7 counterexample: on input `"4\nBolt"` the first non-empty line is
`"4"`, whose normalization is empty, yet `extractCardName` returns
`"Bolt"` — the normalization of a later line, not of the first non-empty
line. -/
theorem extract_skips_unqualifying_first_line :
    nonEmptyLines (("4\nBolt").data) = [("4").data, ("Bolt").data] ∧
    extractCardName ("4\nBolt") = ("Bolt") ∧
    normalizeCardName ("4") = ("") ∧
    (("Bolt") : String) ≠ ("") := by
  refine ⟨?_, ?_, ?_, ?_⟩ <;> decide

/-- C7 (amended): `extractCardName` splits on newlines and returns the
normalization of the first non-empty line whose normalization has at
least 2 characters and at least 2 letters; in particular whenever the
first non-empty line qualifies, its normalization is returned — never a
later or higher-scoring line. -/
theorem extract_first_qualifying_line (s : String) (l₀ : List Char)
    (rest : List (List Char)) (hlines : nonEmptyLines s.data = l₀ :: rest)
    (hlen : 2 ≤ (normalizeChars l₀).length)
    (hcnt : 2 ≤ letterCount (normalizeChars l₀)) :
    extractCardName s = String.mk (normalizeChars l₀) := by
  have hq : firstGoodLine (l₀ :: rest) = some (normalizeChars l₀) := by
    simp [firstGoodLine, hlen, hcnt]
  simp only [extractCardName, hlines, hq]

set_option maxHeartbeats 2000000 in
/-- C7 witness: a two-line recognition result whose first line is the
card name extracts exactly that first line's normalization. -/
theorem extract_first_qualifying_line_witness :
    extractCardName ("Lightning Bolt\nCreature") =
      String.mk (normalizeChars (("Lightning Bolt").data)) :=
  extract_first_qualifying_line ("Lightning Bolt\nCreature")
    (("Lightning Bolt").data) [("Creature").data]
    (by decide) (by decide) (by decide)

/-- Processing a token list with no break continues into any suffix from
the accumulated words. -/
theorem filterTokens_append_of_no_break :
    ∀ (ws₁ : List (List Char)) (acc acc' ws₂ : List (List Char)),
      filterTokens acc ws₁ = (acc', false) →
      filterTokens acc (ws₁ ++ ws₂) = filterTokens acc' ws₂ := by
  intro ws₁
  induction ws₁ with
  | nil =>
      intro acc acc' ws₂ h
      simp only [filterTokens, Prod.mk.injEq] at h
      rw [List.nil_append, h.1]
  | cons w ws ih =>
      intro acc acc' ws₂ h
      simp only [List.cons_append, filterTokens] at h ⊢
      by_cases hg : isLikelyManaGarbage w acc.length = true
      · by_cases ha : 0 < acc.length
        · rw [if_pos (by simp [hg, ha])] at h
          simp at h
        · rw [if_neg (by simp [hg, ha]), if_pos hg] at h
          rw [if_neg (by simp [hg, ha]), if_pos hg]
          exact ih _ _ _ h
      · have hg' : isLikelyManaGarbage w acc.length = false := by
          simpa using hg
        rw [if_neg (by simp [hg']), if_neg (by simp [hg'])] at h
        rw [if_neg (by simp [hg']), if_neg (by simp [hg'])]
        exact ih _ _ _ h

/-- C8 (amended): once the token filter meets a garbage token after at
least one accepted word it stops, discarding the token and the entire
remainder of the line; the concrete line `"Lightning Bolt lE 2R"`
normalizes to `"Lightning Bolt lE"` — `"lE"` survives because its
lowercase form `le` is a whitelisted common (foreign-article) word, and
only `"2R"` is dropped by the break. -/
theorem garbage_break_discards_suffix (ws₁ : List (List Char))
    (w : List Char) (ws₂ acc : List (List Char))
    (h₁ : filterTokens [] ws₁ = (acc, false)) (h₂ : acc ≠ [])
    (h₃ : isLikelyManaGarbage w acc.length = true) :
    (filterTokens [] (ws₁ ++ w :: ws₂)).1 = acc ∧
    (filterTokens [] (ws₁ ++ w :: ws₂)).2 = true ∧
    normalizeCardName ("Lightning Bolt lE 2R") = ("Lightning Bolt lE") := by
  have hlen : 0 < acc.length := List.length_pos.mpr h₂
  rw [filterTokens_append_of_no_break ws₁ [] acc _ h₁]
  refine ⟨?_, ?_, by decide⟩ <;>
    simp [filterTokens, h₃, hlen]

/-- C8 witness: with accepted prefix `Lightning Bolt lE`, the garbage
token `2R` stops the filter and every later token is dropped. -/
theorem garbage_break_discards_suffix_witness :
    (filterTokens [] ([("Lightning").data, ("Bolt").data, ("lE").data] ++
      ("2R").data :: [("Shock").data])).1 =
      [("Lightning").data, ("Bolt").data, ("lE").data] ∧
    (filterTokens [] ([("Lightning").data, ("Bolt").data, ("lE").data] ++
      ("2R").data :: [("Shock").data])).2 = true ∧
    normalizeCardName ("Lightning Bolt lE 2R") = ("Lightning Bolt lE") :=
  garbage_break_discards_suffix
    [("Lightning").data, ("Bolt").data, ("lE").data] (("2R").data)
    [("Shock").data] [("Lightning").data, ("Bolt").data, ("lE").data]
    (by decide) (by decide) (by decide)

/-- C8 counterexample: the specified scenario fails — the code keeps the
trailing `"lE"` (whitelisted as the common word `le`), so the line does
not normalize to `"Lightning Bolt"`. -/
theorem garbage_scenario_keeps_whitelisted_le :
    normalizeCardName ("Lightning Bolt lE 2R") = ("Lightning Bolt lE") ∧
    normalizeCardName ("Lightning Bolt lE 2R") ≠ ("Lightning Bolt") := by
  constructor <;> decide

/-- Tick on a fresh episode: first detection records the start time and
enters Stabilizing without firing. -/
theorem processFrame_start (ts : TrackingState) (lc : Bool) (cu ncc now : ℕ)
    (hcu : cu ≤ now) :
    processFrame ⟨ts, lc, 0, false, cu, false, ncc⟩ now true true =
      (⟨.stabilizing, true, now, false, cu, false, 0⟩, noEvents) := by
  have h1 : ¬ (now < cu) := by omega
  simp [processFrame, h1, CAPTURE_DELAY, noEvents]

/-- Tick while stabilizing below the capture delay: state is kept, no
event fires. -/
theorem processFrame_wait (ts : TrackingState) (lc : Bool)
    (start cu ncc now : ℕ) (hcu : cu ≤ now) (hstart : start ≠ 0)
    (hwait : now - start < CAPTURE_DELAY) :
    processFrame ⟨ts, lc, start, false, cu, false, ncc⟩ now true true =
      (⟨.stabilizing, true, start, false, cu, false, 0⟩, noEvents) := by
  have h1 : ¬ (now < cu) := by omega
  have h2 : ¬ (CAPTURE_DELAY ≤ now - start) := by omega
  simp [processFrame, h1, hstart, h2, noEvents]

/-- Tick reaching the capture delay with the edge flag clear: the
`stable` event fires and the cooldown plus removal gate are set. -/
theorem processFrame_fire (ts : TrackingState) (lc : Bool)
    (start cu ncc now : ℕ) (hcu : cu ≤ now) (hstart : start ≠ 0)
    (hfire : CAPTURE_DELAY ≤ now - start) :
    processFrame ⟨ts, lc, start, false, cu, false, ncc⟩ now true true =
      (⟨.stable, true, start, true, now + COOLDOWN_AFTER_CAPTURE, true, 0⟩,
       { fired := true, cardLost := false }) := by
  have h1 : ¬ (now < cu) := by omega
  simp [processFrame, h1, hstart, hfire, noEvents]

/-- While the removal gate is set, a detected tick can neither fire nor
clear the gate. -/
theorem processFrame_gate (s : TrackState) (now : ℕ)
    (hrr : s.requireCardRemoval = true) :
    (processFrame s now true true).2.fired = false ∧
    (processFrame s now true true).1.requireCardRemoval = true := by
  by_cases h : now < s.cooldownUntil <;>
    simp [processFrame, h, hrr, noEvents]

/-- C2: with continuous presence from a re-armed tracker (no start time,
edge flag and removal gate clear, cooldown expired) and a strictly
increasing clock that eventually reaches the capture delay, the `stable`
event fires exactly once — on the first tick whose elapsed time since
the detection start (the first tick) reaches `CAPTURE_DELAY` — and on no
earlier or later tick. -/
theorem stable_fires_exactly_once (t : ℕ → ℕ) (s₀ : TrackState)
    (h0 : s₀.stableStartTime = 0) (h1 : s₀.hasTriggered = false)
    (h2 : s₀.requireCardRemoval = false) (h3 : s₀.cooldownUntil ≤ t 0)
    (h4 : 0 < t 0) (hmono : ∀ n, t n < t (n + 1))
    (hreach : ∃ n, CAPTURE_DELAY ≤ t n - t 0) :
    (∀ n, firedAt t (fun _ => true) s₀ n = true ↔
      (CAPTURE_DELAY ≤ t n - t 0 ∧ ∀ m < n, t m - t 0 < CAPTURE_DELAY)) ∧
    (∃! n, firedAt t (fun _ => true) s₀ n = true) := by
  obtain ⟨ts0, lc0, sst0, htr0, cu0, rr0, ncc0⟩ := s₀
  simp only at h0 h1 h2 h3
  subst h0 h1 h2
  have tmono : Monotone t := monotone_nat_of_le_succ fun n => (hmono n).le
  have ht0 : ∀ n, t 0 ≤ t n := fun n => tmono (Nat.zero_le n)
  have hstart : t 0 ≠ 0 := by omega
  -- State before every pre-threshold tick of the episode.
  have pre : ∀ n, 0 < n → (∀ m, m < n → t m - t 0 < CAPTURE_DELAY) →
      stateAt t (fun _ => true) ⟨ts0, lc0, 0, false, cu0, false, ncc0⟩ n =
        ⟨.stabilizing, true, t 0, false, cu0, false, 0⟩ := by
    intro n
    induction n with
    | zero => intro h; exact absurd h (lt_irrefl 0)
    | succ k ih =>
      intro _ hm
      rcases Nat.eq_zero_or_pos k with hk | hk
      · subst hk
        show (processFrame _ (t 0) true true).1 = _
        simp only [stateAt]
        rw [processFrame_start ts0 lc0 cu0 ncc0 (t 0) h3]
      · have hpre := ih hk (fun m hm' => hm m (Nat.lt_succ_of_lt hm'))
        show (processFrame _ (t k) true true).1 = _
        rw [hpre, processFrame_wait .stabilizing true (t 0) cu0 0 (t k)
          (le_trans h3 (ht0 k)) hstart (hm k (Nat.lt_succ_self k))]
  -- No tick before the threshold fires.
  have noFire : ∀ n, (∀ m, m ≤ n → t m - t 0 < CAPTURE_DELAY) →
      firedAt t (fun _ => true) ⟨ts0, lc0, 0, false, cu0, false, ncc0⟩ n =
        false := by
    intro n hm
    rcases Nat.eq_zero_or_pos n with hn | hn
    · subst hn
      show (processFrame _ (t 0) true true).2.fired = false
      simp only [stateAt]
      rw [processFrame_start ts0 lc0 cu0 ncc0 (t 0) h3]
      rfl
    · have hpre := pre n hn (fun m hm' => hm m hm'.le)
      show (processFrame _ (t n) true true).2.fired = false
      rw [hpre, processFrame_wait .stabilizing true (t 0) cu0 0 (t n)
        (le_trans h3 (ht0 n)) hstart (hm n le_rfl)]
      rfl
  -- The threshold tick fires and sets the removal gate.
  have fireStep : ∀ n, (∀ m, m < n → t m - t 0 < CAPTURE_DELAY) →
      CAPTURE_DELAY ≤ t n - t 0 →
      firedAt t (fun _ => true) ⟨ts0, lc0, 0, false, cu0, false, ncc0⟩ n =
          true ∧
        (stateAt t (fun _ => true) ⟨ts0, lc0, 0, false, cu0, false, ncc0⟩
          (n + 1)).requireCardRemoval = true := by
    intro n hm hr
    have hn : 0 < n := by
      rcases Nat.eq_zero_or_pos n with h | h
      · subst h
        rw [Nat.sub_self] at hr
        simp [CAPTURE_DELAY] at hr
      · exact h
    have hpre := pre n hn hm
    have hstep := processFrame_fire .stabilizing true (t 0) cu0 0 (t n)
      (le_trans h3 (ht0 n)) hstart hr
    constructor
    · show (processFrame _ (t n) true true).2.fired = true
      rw [hpre, hstep]
    · show ((processFrame _ (t n) true true).1).requireCardRemoval = true
      rw [hpre, hstep]
  -- Once the removal gate is up, continuous presence keeps it up.
  have rrChain : ∀ k n,
      (stateAt t (fun _ => true) ⟨ts0, lc0, 0, false, cu0, false, ncc0⟩
        n).requireCardRemoval = true →
      (stateAt t (fun _ => true) ⟨ts0, lc0, 0, false, cu0, false, ncc0⟩
        (n + k)).requireCardRemoval = true := by
    intro k
    induction k with
    | zero => intro n h; exact h
    | succ j ih =>
      intro n h
      have := (processFrame_gate _ (t (n + j)) (ih n h)).2
      exact this
  have noFireLate : ∀ n m, n ≤ m →
      (stateAt t (fun _ => true) ⟨ts0, lc0, 0, false, cu0, false, ncc0⟩
        n).requireCardRemoval = true →
      firedAt t (fun _ => true) ⟨ts0, lc0, 0, false, cu0, false, ncc0⟩ m =
        false := by
    intro n m hnm hrr
    have hm : (stateAt t (fun _ => true)
        ⟨ts0, lc0, 0, false, cu0, false, ncc0⟩ m).requireCardRemoval =
        true := by
      have := rrChain (m - n) n hrr
      rwa [Nat.add_sub_cancel' hnm] at this
    exact (processFrame_gate _ (t m) hm).1
  -- Assemble around the least tick reaching the delay.
  have hdec : ∀ n, Decidable (CAPTURE_DELAY ≤ t n - t 0) := fun n =>
    Nat.decLe _ _
  set k := Nat.find hreach with hkdef
  have hk : CAPTURE_DELAY ≤ t k - t 0 := Nat.find_spec hreach
  have hkmin : ∀ m, m < k → t m - t 0 < CAPTURE_DELAY := by
    intro m hm
    have := Nat.find_min hreach hm
    omega
  obtain ⟨fk, rrk⟩ := fireStep k hkmin hk
  have hiff : ∀ n,
      firedAt t (fun _ => true) ⟨ts0, lc0, 0, false, cu0, false, ncc0⟩ n =
        true ↔
      (CAPTURE_DELAY ≤ t n - t 0 ∧ ∀ m < n, t m - t 0 < CAPTURE_DELAY) := by
    intro n
    constructor
    · intro hf
      rcases lt_trichotomy n k with h | h | h
      · rw [noFire n (fun m hm => hkmin m (lt_of_le_of_lt hm h))] at hf
        exact absurd hf (by simp)
      · subst h
        exact ⟨hk, hkmin⟩
      · rw [noFireLate (k + 1) n (by omega) rrk] at hf
        exact absurd hf (by simp)
    · rintro ⟨hr, hmin⟩
      have hkn : k = n := by
        rcases lt_trichotomy k n with h | h | h
        · have := hmin k h
          omega
        · exact h
        · have := hkmin n h
          omega
      rw [← hkn]
      exact fk
  refine ⟨hiff, ⟨k, fk, ?_⟩⟩
  intro j hj
  have := (hiff j).mp hj
  rcases lt_trichotomy j k with h | h | h
  · have := hkmin j h
    omega
  · exact h
  · have := this.2 k h
    omega

/-- C2 witness: ticks every 100 ms starting at 1 ms with continuous
presence fire on tick 3 (elapsed 300 ms = `CAPTURE_DELAY`), and on no
other tick. -/
theorem stable_fires_exactly_once_witness :
    firedAt (fun n => 1 + 100 * n) (fun _ => true) initTrackState 3 =
        true ∧
    (∃! n, firedAt (fun n => 1 + 100 * n) (fun _ => true) initTrackState n =
        true) := by
  have H := stable_fires_exactly_once (fun n => 1 + 100 * n) initTrackState
    rfl rfl rfl (by decide) (by decide) (fun n => by simp only []; omega)
    ⟨3, by decide⟩
  exact ⟨(H.1 3).mpr ⟨by decide, by decide⟩, H.2⟩

/-- The detector stream of the C3 failing input: the card is present
except on ticks 18–21 and 23–26 (two interrupted runs of only four
consecutive absent ticks each). -/
def gateScenario (n : ℕ) : Bool :=
  if (18 ≤ n ∧ n ≤ 21) ∨ (23 ≤ n ∧ n ≤ 26) then false else true

set_option maxHeartbeats 2000000 in
set_option maxRecDepth 100000 in
/-- C3: evaluating `processFrame` on ticks every 100 ms shows a first
`stable` event at tick 3 and a second one at tick 30 although the
classifier never reports absence on 8 consecutive ticks (every window of
8 ticks contains a detection): a detected tick while the removal gate is
set returns before resetting `noCardCount`, so the debounce counts
non-consecutive absences, contradicting the claim and §4.3 of the spec. -/
theorem second_stable_without_consecutive_absence :
    firedAt (fun n => 1 + 100 * n) gateScenario initTrackState 3 = true ∧
    firedAt (fun n => 1 + 100 * n) gateScenario initTrackState 30 = true ∧
    ((List.range 24).all fun i =>
      (List.range 8).any fun j => gateScenario (i + j)) = true := by
  refine ⟨?_, ?_, ?_⟩ <;> decide

/-! ### Idempotence of the normalizer on clean inputs (C6)

A clean input is a nonempty sequence of purely alphabetic words of
length at least 4 joined by single spaces; the pipeline fixes such
strings, and the counterexample below shows idempotence fails outside
this domain. -/

theorem ne_of_letter {c d : Char} (h : isAsciiLetter c = true)
    (hd : isAsciiLetter d = false) : c ≠ d := by
  intro he
  rw [he, hd] at h
  exact Bool.false_ne_true h

theorem map_id_of_fix {f : Char → Char} :
    ∀ l : List Char, (∀ c ∈ l, f c = c) → l.map f = l := by
  intro l h
  induction l with
  | nil => rfl
  | cons c cs ih =>
      simp only [List.map_cons]
      rw [h c (by simp), ih (fun x hx => h x (by simp [hx]))]

theorem filter_id_of_pos {p : Char → Bool} :
    ∀ l : List Char, (∀ c ∈ l, p c = true) → l.filter p = l := by
  intro l h
  induction l with
  | nil => rfl
  | cons c cs ih =>
      rw [List.filter_cons, if_pos (h c (by simp)),
        ih (fun x hx => h x (by simp [hx]))]

theorem dropWhile_cons_false {p : Char → Bool} {c : Char} {l : List Char}
    (h : p c = false) : List.dropWhile p (c :: l) = c :: l := by
  simp [List.dropWhile, h]

/-- Membership facts for a word list joined by single spaces. -/
theorem joinSp_chars : ∀ (ws : List (List Char)),
    (∀ w ∈ ws, ∀ c ∈ w, isAsciiLetter c = true) →
    ∀ c ∈ joinSp ws, isAsciiLetter c = true ∨ c = ' ' := by
  intro ws
  induction ws with
  | nil => intro _ c hc; simp [joinSp] at hc
  | cons w ws ih =>
      intro h c hc
      cases ws with
      | nil =>
          simp only [joinSp] at hc
          exact Or.inl (h w (by simp) c hc)
      | cons w' ws' =>
          simp only [joinSp, List.mem_append, List.mem_cons] at hc
          rcases hc with hc | hc | hc
          · exact Or.inl (h w (by simp) c hc)
          · exact Or.inr hc
          · exact ih (fun v hv => h v (by simp [hv])) c hc

/-- A joined nonempty list of nonempty alphabetic words starts with a
letter. -/
theorem joinSp_cons : ∀ (ws : List (List Char)), ws ≠ [] →
    (∀ w ∈ ws, w ≠ [] ∧ ∀ c ∈ w, isAsciiLetter c = true) →
    ∃ c l', joinSp ws = c :: l' ∧ isAsciiLetter c = true := by
  intro ws
  cases ws with
  | nil => intro h; exact absurd rfl h
  | cons w ws =>
      intro _ h
      obtain ⟨hne, hl⟩ := h w (by simp)
      cases w with
      | nil => exact absurd rfl hne
      | cons c w' =>
          cases ws with
          | nil => exact ⟨c, w', rfl, hl c (by simp)⟩
          | cons w'' ws' =>
              exact ⟨c, w' ++ ' ' :: joinSp (w'' :: ws'), rfl, hl c (by simp)⟩

/-- A joined nonempty list of nonempty alphabetic words ends with a
letter. -/
theorem joinSp_reverse_cons : ∀ (ws : List (List Char)), ws ≠ [] →
    (∀ w ∈ ws, w ≠ [] ∧ ∀ c ∈ w, isAsciiLetter c = true) →
    ∃ c l', (joinSp ws).reverse = c :: l' ∧ isAsciiLetter c = true := by
  intro ws
  induction ws with
  | nil => intro h; exact absurd rfl h
  | cons w ws ih =>
      intro _ h
      cases ws with
      | nil =>
          obtain ⟨hne, hl⟩ := h w (by simp)
          obtain ⟨c, l', hrev⟩ :=
            List.exists_cons_of_ne_nil (l := w.reverse) (by simpa using hne)
          refine ⟨c, l', by simpa [joinSp] using hrev, ?_⟩
          have : c ∈ w.reverse := by rw [hrev]; simp
          exact hl c (by simpa using this)
      | cons w'' ws' =>
          obtain ⟨c, l', hrev, hc⟩ := ih (by simp)
            (fun v hv => h v (by simp [hv]))
          refine ⟨c, l' ++ (' ' :: w.reverse), ?_, hc⟩
          show (w ++ ' ' :: joinSp (w'' :: ws')).reverse = _
          rw [List.reverse_append, List.reverse_cons, hrev]
          simp

theorem oneBeforeLetter_id : ∀ (l : List Char), (∀ c ∈ l, c ≠ '1') →
    oneBeforeLetter l = l := by
  intro l h
  induction l with
  | nil => rfl
  | cons c cs ih =>
      have h1 : (c = '1') = False := by
        simp [h c (by simp)]
      simp only [oneBeforeLetter, h1]
      rw [ih (fun x hx => h x (by simp [hx]))]
      simp

theorem oneAfterLetter_id : ∀ (l : List Char) (p : Char),
    (∀ c ∈ l, c ≠ '1') → oneAfterLetter p l = l := by
  intro l
  induction l with
  | nil => intro p _; rfl
  | cons c cs ih =>
      intro p h
      have h1 : (c = '1') = False := by
        simp [h c (by simp)]
      simp only [oneAfterLetter, h1]
      rw [ih c (fun x hx => h x (by simp [hx]))]
      simp

theorem collapseDots_id : ∀ (l : List Char), (∀ c ∈ l, c ≠ '.') →
    collapseDots 0 l = l := by
  intro l h
  induction l with
  | nil => rfl
  | cons c cs ih =>
      have h1 : ¬ (c = '.') := h c (by simp)
      simp only [collapseDots, if_neg h1]
      rw [if_neg (by omega), ih (fun x hx => h x (by simp [hx]))]

theorem collapseCommas_id : ∀ (l : List Char), (∀ c ∈ l, c ≠ ',') →
    collapseCommas 0 l = l := by
  intro l h
  induction l with
  | nil => rfl
  | cons c cs ih =>
      have h1 : ¬ (c = ',') := h c (by simp)
      simp only [collapseCommas, if_neg h1]
      rw [if_pos trivial, ih (fun x hx => h x (by simp [hx]))]

theorem wsChar_of_letter {c : Char} (h : isAsciiLetter c = true) :
    wsChar c = false := by
  cases hw : wsChar c
  · rfl
  · exfalso
    have hmem := by simpa [wsChar] using hw
    rcases hmem with ((((rfl | rfl) | rfl) | rfl) | rfl) | rfl <;>
      exact absurd h (by decide)

theorem collapseWs_letters : ∀ (w l : List Char),
    (∀ c ∈ w, isAsciiLetter c = true) →
    collapseWs 0 (w ++ l) = w ++ collapseWs 0 l := by
  intro w
  induction w with
  | nil => intro l _; rfl
  | cons c cs ih =>
      intro l h
      have h1 : wsChar c = false := wsChar_of_letter (h c (by simp))
      simp only [List.cons_append, collapseWs, h1]
      rw [if_pos trivial]
      exact congrArg (List.cons c) (ih l (fun x hx => h x (by simp [hx])))

theorem collapseWs_space_cons {c : Char} {l : List Char}
    (h : wsChar c = false) :
    collapseWs 0 (' ' :: c :: l) = ' ' :: collapseWs 0 (c :: l) := by
  have h' : ¬ (((((c = ' ' ∨ c = Char.ofNat 9) ∨ c = Char.ofNat 10) ∨
      c = Char.ofNat 13) ∨ c = Char.ofNat 11) ∨ c = Char.ofNat 12) := by
    simpa [wsChar] using h
  simp [collapseWs, wsChar, h']

theorem collapseWs_joinSp : ∀ (ws : List (List Char)), ws ≠ [] →
    (∀ w ∈ ws, w ≠ [] ∧ ∀ c ∈ w, isAsciiLetter c = true) →
    collapseWs 0 (joinSp ws) = joinSp ws := by
  intro ws
  induction ws with
  | nil => intro h; exact absurd rfl h
  | cons w ws ih =>
      intro _ h
      cases ws with
      | nil =>
          show collapseWs 0 (joinSp [w]) = joinSp [w]
          have : joinSp [w] = w ++ [] := by simp [joinSp]
          rw [this, collapseWs_letters w [] (h w (by simp)).2]
          rfl
      | cons w'' ws' =>
          show collapseWs 0 (w ++ ' ' :: joinSp (w'' :: ws')) = _
          rw [collapseWs_letters w _ (h w (by simp)).2]
          obtain ⟨c, l', hj, hc⟩ := joinSp_cons (w'' :: ws') (by simp)
            (fun v hv => h v (by simp [hv]))
          rw [hj, collapseWs_space_cons (wsChar_of_letter hc), ← hj,
            ih (by simp) (fun v hv => h v (by simp [hv]))]
          rfl

theorem splitOnChar_no_sep : ∀ (w : List Char), (∀ c ∈ w, c ≠ ' ') →
    splitOnChar ' ' w = [w] := by
  intro w
  induction w with
  | nil => intro _; rfl
  | cons c cs ih =>
      intro h
      show (if c = ' ' then [] :: splitOnChar ' ' cs
            else match splitOnChar ' ' cs with
                 | v :: vs => (c :: v) :: vs
                 | [] => [[c]]) = [c :: cs]
      rw [if_neg (h c (by simp)), ih (fun x hx => h x (by simp [hx]))]

theorem splitOnChar_word_sep : ∀ (w l : List Char), (∀ c ∈ w, c ≠ ' ') →
    splitOnChar ' ' (w ++ ' ' :: l) = w :: splitOnChar ' ' l := by
  intro w
  induction w with
  | nil =>
      intro l _
      show splitOnChar ' ' (' ' :: l) = [] :: splitOnChar ' ' l
      simp [splitOnChar]
  | cons c cs ih =>
      intro l h
      show (if c = ' ' then [] :: splitOnChar ' ' (cs ++ ' ' :: l)
            else match splitOnChar ' ' (cs ++ ' ' :: l) with
                 | v :: vs => (c :: v) :: vs
                 | [] => [[c]]) = (c :: cs) :: splitOnChar ' ' l
      rw [if_neg (h c (by simp)), ih l (fun x hx => h x (by simp [hx]))]

theorem splitOnChar_joinSp : ∀ (ws : List (List Char)), ws ≠ [] →
    (∀ w ∈ ws, ∀ c ∈ w, c ≠ ' ') →
    splitOnChar ' ' (joinSp ws) = ws := by
  intro ws
  induction ws with
  | nil => intro h; exact absurd rfl h
  | cons w ws ih =>
      intro _ h
      cases ws with
      | nil => exact splitOnChar_no_sep w (h w (by simp))
      | cons w'' ws' =>
          show splitOnChar ' ' (w ++ ' ' :: joinSp (w'' :: ws')) = _
          rw [splitOnChar_word_sep w _ (h w (by simp)),
            ih (by simp) (fun v hv => h v (by simp [hv]))]

/-- A word whose cleaned form has at least 4 characters is never flagged
as mana garbage: every `true` branch of the filter is guarded by a
cleaned length of 1, 2 or 3. -/
theorem not_garbage_of_long (w : List Char) (i : ℕ)
    (hw : 4 ≤ (cleanedWord w).length) : isLikelyManaGarbage w i = false := by
  have e1 := eq_false (show ¬ (cleanedWord w).length = 1 by omega)
  have e2 := eq_false (show ¬ (cleanedWord w).length = 2 by omega)
  have e3 := eq_false (show ¬ (cleanedWord w).length = 3 by omega)
  simp [isLikelyManaGarbage, e1, e2, e3]

/-- Purely alphabetic words are their own cleaned forms (letters are
neither apostrophes nor hyphens, and stay fixed under lowercasing
length-wise). -/
theorem cleanedWord_length (w : List Char)
    (hw : ∀ c ∈ w, isAsciiLetter c = true) :
    (cleanedWord w).length = w.length := by
  unfold cleanedWord
  rw [filter_id_of_pos w ?_, List.length_map]
  intro c hc
  have h1 : c ≠ apoChar := ne_of_letter (hw c hc) (by decide)
  have h2 : c ≠ '-' := ne_of_letter (hw c hc) (by decide)
  simp [h1, h2]

theorem filterTokens_all_accepted :
    ∀ (ws acc : List (List Char)),
      (∀ w ∈ ws, ∀ i, isLikelyManaGarbage w i = false) →
      filterTokens acc ws = (acc ++ ws, false) := by
  intro ws
  induction ws with
  | nil => intro acc _; simp [filterTokens]
  | cons w ws ih =>
      intro acc h
      have hg : isLikelyManaGarbage w acc.length = false := h w (by simp) _
      simp only [filterTokens]
      rw [if_neg (by simp [hg]), if_neg (by simp [hg]),
        ih (acc ++ [w]) (fun v hv => h v (by simp [hv]))]
      simp

theorem artifact_not_letter {c : Char} (h : isAsciiLetter c = true) :
    isArtifactChar c = false := by
  cases ha : isArtifactChar c
  · rfl
  · exfalso
    have hm := of_decide_eq_true (by simpa [isArtifactChar] using ha)
    rcases hm with rfl | rfl | rfl | rfl | rfl | rfl | rfl | rfl | rfl |
      rfl | rfl | rfl | rfl | rfl | rfl | rfl | rfl | rfl | rfl | rfl |
      rfl | rfl <;> exact absurd h (by decide)

/-- Every character transformation of the pipeline fixes a string of
alphabetic words separated by single spaces. -/
theorem charPipeline_joinSp (ws : List (List Char)) (hne : ws ≠ [])
    (hw : ∀ w ∈ ws, w ≠ [] ∧ ∀ c ∈ w, isAsciiLetter c = true) :
    charPipeline (joinSp ws) = joinSp ws := by
  have hch : ∀ c ∈ joinSp ws, isAsciiLetter c = true ∨ c = ' ' :=
    joinSp_chars ws (fun w hw' => (hw w hw').2)
  obtain ⟨c0, l0, hj, hc0⟩ := joinSp_cons ws hne hw
  obtain ⟨cr, lr, hjr, hcr⟩ := joinSp_reverse_cons ws hne hw
  have hne1 : ∀ c ∈ joinSp ws, c ≠ '1' := by
    intro c hc
    rcases hch c hc with h | h
    · exact ne_of_letter h (by decide)
    · subst h; decide
  have hdot : ∀ c ∈ joinSp ws, c ≠ '.' := by
    intro c hc
    rcases hch c hc with h | h
    · exact ne_of_letter h (by decide)
    · subst h; decide
  have hcomma : ∀ c ∈ joinSp ws, c ≠ ',' := by
    intro c hc
    rcases hch c hc with h | h
    · exact ne_of_letter h (by decide)
    · subst h; decide
  unfold charPipeline
  have s1 : jsTrim (joinSp ws) = joinSp ws := by
    unfold jsTrim
    rw [hj, dropWhile_cons_false (wsChar_of_letter hc0), ← hj, hjr,
      dropWhile_cons_false (wsChar_of_letter hcr), ← hjr,
      List.reverse_reverse]
  have s2 : stripLeadBrackets (joinSp ws) = joinSp ws := by
    unfold stripLeadBrackets
    have e1 : c0 ≠ '(' := ne_of_letter hc0 (by decide)
    have e2 : c0 ≠ '[' := ne_of_letter hc0 (by decide)
    have e3 : c0 ≠ ']' := ne_of_letter hc0 (by decide)
    rw [hj, dropWhile_cons_false (by simp [e1, e2, e3]), ← hj]
  have s3 : removeArtifacts (joinSp ws) = joinSp ws := by
    refine filter_id_of_pos _ (fun c hc => ?_)
    rcases hch c hc with h | h
    · simp [artifact_not_letter h]
    · subst h; decide
  have s4 : zeroToO (joinSp ws) = joinSp ws := by
    refine map_id_of_fix _ (fun c hc => ?_)
    rcases hch c hc with h | h
    · rw [if_neg (ne_of_letter h (by decide))]
    · subst h; rw [if_neg (by decide)]
  have s5 : oneBeforeLetter (joinSp ws) = joinSp ws :=
    oneBeforeLetter_id _ hne1
  have s6 : oneAfterLetter ' ' (joinSp ws) = joinSp ws :=
    oneAfterLetter_id _ ' ' hne1
  have s7 : foldQuotes (joinSp ws) = joinSp ws := by
    refine map_id_of_fix _ (fun c hc => ?_)
    rcases hch c hc with h | h
    · rw [if_neg ?_]
      simp [ne_of_letter h (show isAsciiLetter (Char.ofNat 8216) = false by decide),
        ne_of_letter h (show isAsciiLetter (Char.ofNat 8217) = false by decide),
        ne_of_letter h (show isAsciiLetter (Char.ofNat 96) = false by decide),
        ne_of_letter h (show isAsciiLetter (Char.ofNat 180) = false by decide)]
    · subst h; rw [if_neg (by decide)]
  have s8 : foldDoubleQuotes (joinSp ws) = joinSp ws := by
    refine map_id_of_fix _ (fun c hc => ?_)
    rcases hch c hc with h | h
    · rw [if_neg ?_]
      simp [ne_of_letter h (show isAsciiLetter (Char.ofNat 8220) = false by decide),
        ne_of_letter h (show isAsciiLetter (Char.ofNat 8221) = false by decide),
        ne_of_letter h (show isAsciiLetter (Char.ofNat 171) = false by decide),
        ne_of_letter h (show isAsciiLetter (Char.ofNat 187) = false by decide)]
    · subst h; rw [if_neg (by decide)]
  have s9 : foldDashes (joinSp ws) = joinSp ws := by
    refine map_id_of_fix _ (fun c hc => ?_)
    rcases hch c hc with h | h
    · rw [if_neg ?_]
      simp [ne_of_letter h (show isAsciiLetter (Char.ofNat 8211) = false by decide),
        ne_of_letter h (show isAsciiLetter (Char.ofNat 8212) = false by decide),
        ne_of_letter h (show isAsciiLetter (Char.ofNat 8722) = false by decide)]
    · subst h; rw [if_neg (by decide)]
  have s10 : collapseDots 0 (joinSp ws) = joinSp ws := collapseDots_id _ hdot
  have s11 : collapseCommas 0 (joinSp ws) = joinSp ws :=
    collapseCommas_id _ hcomma
  have s12 : collapseWs 0 (joinSp ws) = joinSp ws :=
    collapseWs_joinSp ws hne hw
  have s13 : dropLeadNonLetter (joinSp ws) = joinSp ws := by
    unfold dropLeadNonLetter
    rw [hj, dropWhile_cons_false (by simp [hc0]), ← hj]
  have s14 : dropTrailGarbage (joinSp ws) = joinSp ws := by
    unfold dropTrailGarbage
    rw [hjr, dropWhile_cons_false (by simp [hcr]), ← hjr,
      List.reverse_reverse]
  rw [s1, s2, s3, s4, s5, s6, s7, s8, s9, s10, s11, s12, s13, s14]

/-- The whole normalizer fixes clean inputs. -/
theorem normalizeChars_joinSp (ws : List (List Char)) (hne : ws ≠ [])
    (hw : ∀ w ∈ ws, 4 ≤ w.length ∧ ∀ c ∈ w, isAsciiLetter c = true) :
    normalizeChars (joinSp ws) = joinSp ws := by
  have hw' : ∀ w ∈ ws, w ≠ [] ∧ ∀ c ∈ w, isAsciiLetter c = true := by
    intro w h
    refine ⟨?_, (hw w h).2⟩
    have := (hw w h).1
    intro he
    subst he
    simp at this
  unfold normalizeChars
  rw [charPipeline_joinSp ws hne hw',
    splitOnChar_joinSp ws hne (fun w hmem c hc =>
      ne_of_letter ((hw' w hmem).2 c hc) (by decide)),
    filterTokens_all_accepted ws [] (fun w hmem i =>
      not_garbage_of_long w i (by
        rw [cleanedWord_length w (hw w hmem).2]
        exact (hw w hmem).1))]
  simp

/-- C6 counterexample: `normalizeCardName` is not idempotent.  On
`"ab, zz"` the token filter stops at the garbage token `zz`, returning
`"ab,"`; renormalizing strips the now-trailing comma, which turns `ab`
into a 2-letter garbage token, and the result collapses to `""`. -/
theorem normalize_not_idempotent :
    normalizeCardName ("ab, zz") = ("ab,") ∧
    normalizeCardName (normalizeCardName ("ab, zz")) = ("") ∧
    normalizeCardName (normalizeCardName ("ab, zz")) ≠
      normalizeCardName ("ab, zz") := by
  refine ⟨?_, ?_, ?_⟩ <;> decide

/-- C6 (amended): the normalizer is idempotent on clean inputs — for
every input that is a nonempty sequence of purely alphabetic words of
length at least 4 joined by single spaces, normalization returns the
input unchanged, hence applying it twice equals applying it once.  (On
arbitrary strings idempotence fails, see the counterexample.) -/
theorem normalize_idempotent_on_clean_words (ws : List (List Char))
    (hne : ws ≠ [])
    (hw : ∀ w ∈ ws, 4 ≤ w.length ∧ ∀ c ∈ w, isAsciiLetter c = true) :
    normalizeCardName (String.mk (joinSp ws)) = String.mk (joinSp ws) ∧
    normalizeCardName (normalizeCardName (String.mk (joinSp ws))) =
      normalizeCardName (String.mk (joinSp ws)) := by
  have key : normalizeChars (joinSp ws) = joinSp ws :=
    normalizeChars_joinSp ws hne hw
  have e : normalizeCardName (String.mk (joinSp ws)) =
      String.mk (joinSp ws) := by
    show String.mk (normalizeChars (joinSp ws)) = String.mk (joinSp ws)
    rw [key]
  exact ⟨e, by rw [e, e]⟩

/-- C6 witness: `"Lightning Bolt"` is a clean input, so normalizing it
twice equals normalizing it once (both give the string itself). -/
theorem normalize_idempotent_witness :
    normalizeCardName (String.mk (joinSp [("Lightning").data,
      ("Bolt").data])) = String.mk (joinSp [("Lightning").data,
      ("Bolt").data]) ∧
    normalizeCardName (normalizeCardName (String.mk
      (joinSp [("Lightning").data, ("Bolt").data]))) =
      normalizeCardName (String.mk (joinSp [("Lightning").data,
        ("Bolt").data])) :=
  normalize_idempotent_on_clean_words [("Lightning").data, ("Bolt").data]
    (by decide) (by decide)

/-! ### Otsu refinement (C1) -/

theorem le_foldl_max : ∀ (l : List ℚ) (a : ℚ), a ≤ l.foldl max a := by
  intro l
  induction l with
  | nil => intro a; exact le_refl a
  | cons x xs ih =>
      intro a
      exact le_trans (le_max_left a x) (ih (max a x))

theorem mem_le_foldl_max : ∀ (l : List ℚ) (a x : ℚ), x ∈ l →
    x ≤ l.foldl max a := by
  intro l
  induction l with
  | nil => intro a x hx; simp at hx
  | cons y ys ih =>
      intro a x hx
      rcases List.mem_cons.mp hx with rfl | hx
      · exact le_trans (le_max_right a x) (le_foldl_max ys (max a x))
      · exact ih (max a y) x hx

theorem foldl_max_le : ∀ (l : List ℚ) (a b : ℚ), a ≤ b →
    (∀ x ∈ l, x ≤ b) → l.foldl max a ≤ b := by
  intro l
  induction l with
  | nil => intro a b hab _; exact hab
  | cons y ys ih =>
      intro a b hab h
      exact ih (max a y) b (max_le hab (h y (by simp)))
        (fun x hx => h x (by simp [hx]))

theorem foldl_max_append (l : List ℚ) (a x : ℚ) :
    (l ++ [x]).foldl max a = max (l.foldl max a) x := by
  rw [List.foldl_append]
  rfl

theorem find?_range'_eq_some {p : ℕ → Bool} :
    ∀ (n s k : ℕ), s ≤ k → k < s + n → p k = true →
    (∀ j, s ≤ j → j < k → p j = false) →
    (List.range' s n).find? p = some k := by
  intro n
  induction n with
  | zero => intro s k h1 h2 _ _; omega
  | succ m ih =>
      intro s k h1 h2 hk hlt
      rw [show List.range' s (m + 1) = s :: List.range' (s + 1) m from rfl]
      rcases Nat.eq_or_lt_of_le h1 with rfl | hsk
      · rw [List.find?_cons_of_pos _ hk]
      · rw [List.find?_cons_of_neg _ (by simp [hlt s le_rfl hsk])]
        exact ih (s + 1) k hsk (by omega) hk
          (fun j hj1 hj2 => hlt j (by omega) hj2)

theorem find?_range_eq_some {p : ℕ → Bool} {n k : ℕ} (h2 : k < n)
    (hk : p k = true) (hlt : ∀ j, j < k → p j = false) :
    (List.range n).find? p = some k := by
  rw [List.range_eq_range']
  exact find?_range'_eq_some n 0 k (Nat.zero_le k) (by omega) hk
    (fun j _ hj => hlt j hj)

/-- The histogram of the pixel list redistributes its length over the
256 bins. -/
theorem length_eq_sum_hist (pixels : List (Fin 256)) :
    pixels.length = ∑ j ∈ Finset.range 256, histOf pixels j := by
  induction pixels with
  | nil => simp [histOf]
  | cons p ps ih =>
      have hcount : ∀ j, histOf (p :: ps) j =
          histOf ps j + (if p.val = j then 1 else 0) := by
        intro j
        simp [histOf, List.count_cons]
      rw [show (∑ j ∈ Finset.range 256, histOf (p :: ps) j) =
          ∑ j ∈ Finset.range 256,
            (histOf ps j + if p.val = j then 1 else 0) from
          Finset.sum_congr rfl (fun j _ => hcount j)]
      rw [Finset.sum_add_distrib, ← ih]
      have hone : (∑ j ∈ Finset.range 256,
          if p.val = j then 1 else 0) = 1 := by
        rw [Finset.sum_ite_eq (Finset.range 256) p.val (fun _ => 1),
          if_pos (Finset.mem_range.mpr p.isLt)]
      rw [hone]
      simp

/-- Invariant of the candidate loop: the running maximum is the maximum
between-class variance over the processed prefix (floored at zero), and
the running threshold is the first candidate attaining it when positive,
else 128.  The loop's final answer is the specification's threshold. -/
theorem otsuLoop_correct (hist : ℕ → ℕ) (total : ℕ)
    (htot : total = ∑ j ∈ Finset.range 256, hist j) :
    ∀ (n k : ℕ), k + n = 256 → ∀ (maxVar : ℚ) (thr : ℕ),
    maxVar = ((List.range k).map
      (betweenClassVariance hist total)).foldl max 0 →
    (0 < maxVar → (List.range 256).find?
        (fun i => betweenClassVariance hist total i = maxVar) = some thr) →
    (¬ 0 < maxVar → thr = 128) →
    otsuLoop hist total ((otsuTotalSum hist : ℕ) : ℚ) (List.range' k n)
        (∑ j ∈ Finset.range k, hist j) (∑ j ∈ Finset.range k, j * hist j)
        maxVar thr = otsuSpecThreshold hist total := by
  intro n
  induction n with
  | zero =>
      intro k hk maxVar thr hM hpos hzero
      have hk' : k = 256 := by omega
      subst hk'
      show thr = otsuSpecThreshold hist total
      unfold otsuSpecThreshold
      rw [show maxVariance256 hist total = maxVar from hM.symm]
      by_cases hp : 0 < maxVar
      · rw [if_pos hp, hpos hp]
        rfl
      · rw [if_neg hp]
        exact hzero hp
  | succ m ih =>
      intro k hk maxVar thr hM hpos hzero
      have hk256 : k < 256 := by omega
      have hMnonneg : 0 ≤ maxVar := by
        rw [hM]
        exact le_foldl_max _ 0
      have hMbound : ∀ j, j < k → betweenClassVariance hist total j ≤ maxVar := by
        intro j hj
        rw [hM]
        exact mem_le_foldl_max _ 0 _
          (List.mem_map_of_mem _ (List.mem_range.mpr hj))
      rw [show List.range' k (m + 1) = k :: List.range' (k + 1) m from rfl]
      show otsuLoop _ _ _ _ _ _ _ _ = _
      rw [show (otsuLoop hist total ((otsuTotalSum hist : ℕ) : ℚ)
          (k :: List.range' (k + 1) m) (∑ j ∈ Finset.range k, hist j)
          (∑ j ∈ Finset.range k, j * hist j) maxVar thr) =
          (if (∑ j ∈ Finset.range k, hist j) + hist k = 0 then
            otsuLoop hist total ((otsuTotalSum hist : ℕ) : ℚ)
              (List.range' (k + 1) m)
              ((∑ j ∈ Finset.range k, hist j) + hist k)
              (∑ j ∈ Finset.range k, j * hist j) maxVar thr
          else if total - ((∑ j ∈ Finset.range k, hist j) + hist k) = 0 then
            thr
          else if maxVar < classVariance total ((otsuTotalSum hist : ℕ) : ℚ)
              ((∑ j ∈ Finset.range k, hist j) + hist k)
              ((∑ j ∈ Finset.range k, j * hist j) + k * hist k) then
            otsuLoop hist total ((otsuTotalSum hist : ℕ) : ℚ)
              (List.range' (k + 1) m)
              ((∑ j ∈ Finset.range k, hist j) + hist k)
              ((∑ j ∈ Finset.range k, j * hist j) + k * hist k)
              (classVariance total ((otsuTotalSum hist : ℕ) : ℚ)
                ((∑ j ∈ Finset.range k, hist j) + hist k)
                ((∑ j ∈ Finset.range k, j * hist j) + k * hist k)) k
          else
            otsuLoop hist total ((otsuTotalSum hist : ℕ) : ℚ)
              (List.range' (k + 1) m)
              ((∑ j ∈ Finset.range k, hist j) + hist k)
              ((∑ j ∈ Finset.range k, j * hist j) + k * hist k) maxVar thr)
          from rfl]
      have ewB : (∑ j ∈ Finset.range k, hist j) + hist k =
          ∑ j ∈ Finset.range (k + 1), hist j :=
        (Finset.sum_range_succ hist k).symm
      have esumB : (∑ j ∈ Finset.range k, j * hist j) + k * hist k =
          ∑ j ∈ Finset.range (k + 1), j * hist j :=
        (Finset.sum_range_succ (fun j => j * hist j) k).symm
      have hMsucc : ((List.range (k + 1)).map
          (betweenClassVariance hist total)).foldl max 0 =
          max maxVar (betweenClassVariance hist total k) := by
        rw [List.range_succ, List.map_append, List.map_cons, List.map_nil,
          foldl_max_append, ← hM]
      by_cases hz : (∑ j ∈ Finset.range k, hist j) + hist k = 0
      · rw [if_pos hz]
        have hhk : hist k = 0 := by omega
        have hVk : betweenClassVariance hist total k = 0 := by
          unfold betweenClassVariance
          rw [if_pos (Or.inl (by rw [← ewB]; exact hz))]
        have hM' : maxVar = ((List.range (k + 1)).map
            (betweenClassVariance hist total)).foldl max 0 := by
          rw [hMsucc, hVk]
          exact (max_eq_left hMnonneg).symm
        have esumB' : (∑ j ∈ Finset.range k, j * hist j) =
            ∑ j ∈ Finset.range (k + 1), j * hist j := by
          rw [Finset.sum_range_succ, hhk]
          simp
        rw [ewB, esumB']
        exact ih (k + 1) (by omega) maxVar thr hM' hpos hzero
      · rw [if_neg hz]
        by_cases hwF : total - ((∑ j ∈ Finset.range k, hist j) + hist k) = 0
        · rw [if_pos hwF]
          have hle : (∑ j ∈ Finset.range (k + 1), hist j) ≤ total := by
            rw [htot]
            exact Finset.sum_le_sum_of_subset
              (Finset.range_subset.mpr (by omega))
          have heq : (∑ j ∈ Finset.range (k + 1), hist j) = total := by
            rw [← ewB] at hle ⊢
            omega
          have hVge : ∀ j, k ≤ j → betweenClassVariance hist total j = 0 := by
            intro j hj
            unfold betweenClassVariance
            have h1 : total ≤ ∑ i ∈ Finset.range (j + 1), hist i := by
              rw [← heq]
              exact Finset.sum_le_sum_of_subset
                (Finset.range_subset.mpr (by omega))
            rw [if_pos (Or.inr (by omega))]
          have hext : ∀ p, k ≤ p → ((List.range p).map
              (betweenClassVariance hist total)).foldl max 0 = maxVar := by
            intro p hp
            induction p with
            | zero =>
                have : k = 0 := by omega
                subst this
                exact hM.symm
            | succ q ihq =>
                rcases Nat.lt_or_ge k (q + 1) with hlt | hge
                · have hkq : k ≤ q := by omega
                  rw [List.range_succ, List.map_append, List.map_cons,
                    List.map_nil, foldl_max_append, ihq hkq, hVge q hkq]
                  exact max_eq_left hMnonneg
                · have : k = q + 1 := by omega
                  subst this
                  exact hM.symm
          show thr = otsuSpecThreshold hist total
          unfold otsuSpecThreshold
          rw [show maxVariance256 hist total = maxVar from hext 256 (by omega)]
          by_cases hp : 0 < maxVar
          · rw [if_pos hp, hpos hp]
            rfl
          · rw [if_neg hp]
            exact hzero hp
        · rw [if_neg hwF]
          have hVk : betweenClassVariance hist total k =
              classVariance total ((otsuTotalSum hist : ℕ) : ℚ)
                ((∑ j ∈ Finset.range k, hist j) + hist k)
                ((∑ j ∈ Finset.range k, j * hist j) + k * hist k) := by
            unfold betweenClassVariance
            rw [if_neg (by rw [← ewB]; push_neg; exact ⟨hz, hwF⟩), ← ewB,
              ← esumB]
          rw [← hVk]
          by_cases hlt : maxVar < betweenClassVariance hist total k
          · rw [if_pos hlt, ewB, esumB]
            refine ih (k + 1) (by omega)
              (betweenClassVariance hist total k) k ?_ ?_ ?_
            · rw [hMsucc]
              exact (max_eq_right hlt.le).symm
            · intro _
              refine find?_range_eq_some hk256 (by simp) ?_
              intro j hj
              have := hMbound j hj
              simp only [decide_eq_false_iff_not]
              intro he
              rw [he] at this
              exact absurd hlt (not_lt.mpr this)
            · intro hcon
              exact absurd (lt_of_le_of_lt hMnonneg hlt) hcon
          · rw [if_neg hlt, ewB, esumB]
            refine ih (k + 1) (by omega) maxVar thr ?_ hpos hzero
            rw [hMsucc]
            exact (max_eq_left (not_lt.mp hlt)).symm

/-- `calculateOtsuThreshold` refines the specification's threshold. -/
theorem calculateOtsu_eq_spec (pixels : List (Fin 256)) :
    calculateOtsuThreshold pixels =
      otsuSpecThreshold (histOf pixels) pixels.length := by
  unfold calculateOtsuThreshold
  have h := otsuLoop_correct (histOf pixels) pixels.length
    (length_eq_sum_hist pixels) 256 0 (by omega) 0 128 (by simp)
    (fun hcon => absurd hcon (by simp)) (fun _ => rfl)
  simpa [List.range_eq_range'] using h

theorem hist_bimodal (j : ℕ) : histOf bimodalPixels j =
    if j = 20 then 4 else if j = 220 then 6 else 0 := by
  by_cases h1 : j = 20
  · subst h1
    rw [if_pos rfl]
    decide
  · by_cases h2 : j = 220
    · subst h2
      rw [if_neg h1, if_pos rfl]
      decide
    · rw [if_neg h1, if_neg h2]
      refine List.count_eq_zero.mpr ?_
      have e20 : ((20 : Fin 256) : ℕ) = 20 := rfl
      have e220 : ((220 : Fin 256) : ℕ) = 220 := rfl
      simp [bimodalPixels, List.mem_replicate, e20, e220]
      omega

theorem bim_wB_low (i : ℕ) (h : i < 20) :
    (∑ j ∈ Finset.range (i + 1), histOf bimodalPixels j) = 0 := by
  refine Finset.sum_eq_zero (fun j hj => ?_)
  have hji : j < i + 1 := Finset.mem_range.mp hj
  rw [hist_bimodal, if_neg (by omega), if_neg (by omega)]

theorem bim_wB_mid (i : ℕ) (h1 : 20 ≤ i) (h2 : i < 220) :
    (∑ j ∈ Finset.range (i + 1), histOf bimodalPixels j) = 4 := by
  rw [Finset.sum_congr rfl (fun j _ => hist_bimodal j)]
  rw [Finset.sum_eq_single_of_mem 20 (Finset.mem_range.mpr (by omega))]
  · rw [if_pos rfl]
  · intro b hb hbne
    have : b < i + 1 := Finset.mem_range.mp hb
    rw [if_neg hbne, if_neg (by omega)]

theorem bim_sumB_mid (i : ℕ) (h1 : 20 ≤ i) (h2 : i < 220) :
    (∑ j ∈ Finset.range (i + 1), j * histOf bimodalPixels j) = 80 := by
  rw [Finset.sum_congr rfl (fun j _ => by rw [hist_bimodal j])]
  rw [Finset.sum_eq_single_of_mem 20 (Finset.mem_range.mpr (by omega))]
  · rw [if_pos rfl]
  · intro b hb hbne
    have : b < i + 1 := Finset.mem_range.mp hb
    rw [if_neg hbne, if_neg (by omega)]
    simp

theorem bim_wB_high (i : ℕ) (h : 220 ≤ i) :
    (∑ j ∈ Finset.range (i + 1), histOf bimodalPixels j) = 10 := by
  rw [Finset.sum_congr rfl (fun j _ => hist_bimodal j)]
  rw [← Finset.sum_subset (show ({20, 220} : Finset ℕ) ⊆
      Finset.range (i + 1) by
        intro x hx
        rcases Finset.mem_insert.mp hx with rfl | hx
        · exact Finset.mem_range.mpr (by omega)
        · rw [Finset.mem_singleton.mp hx]
          exact Finset.mem_range.mpr (by omega))]
  · rw [Finset.sum_pair (by omega : (20 : ℕ) ≠ 220), if_pos rfl,
      if_neg (by omega), if_pos rfl]
  · intro x _ hx
    simp only [Finset.mem_insert, Finset.mem_singleton] at hx
    push_neg at hx
    rw [if_neg hx.1, if_neg hx.2]

theorem bim_totalSum : otsuTotalSum (histOf bimodalPixels) = 1400 := by
  unfold otsuTotalSum
  rw [Finset.sum_congr rfl (fun j _ => by rw [hist_bimodal j])]
  rw [← Finset.sum_subset (show ({20, 220} : Finset ℕ) ⊆
      Finset.range 256 by
        intro x hx
        rcases Finset.mem_insert.mp hx with rfl | hx
        · exact Finset.mem_range.mpr (by omega)
        · rw [Finset.mem_singleton.mp hx]
          exact Finset.mem_range.mpr (by omega))]
  · rw [Finset.sum_pair (by omega : (20 : ℕ) ≠ 220), if_pos rfl,
      if_neg (by omega), if_pos rfl]
  · intro x _ hx
    simp only [Finset.mem_insert, Finset.mem_singleton] at hx
    push_neg at hx
    rw [if_neg hx.1, if_neg hx.2]
    simp

theorem bim_variance_low (i : ℕ) (h : i < 20) :
    betweenClassVariance (histOf bimodalPixels) 10 i = 0 := by
  unfold betweenClassVariance
  rw [if_pos (Or.inl (bim_wB_low i h))]

theorem bim_variance_high (i : ℕ) (h : 220 ≤ i) :
    betweenClassVariance (histOf bimodalPixels) 10 i = 0 := by
  unfold betweenClassVariance
  rw [if_pos (Or.inr (by rw [bim_wB_high i h]))]

theorem bim_variance_mid (i : ℕ) (h1 : 20 ≤ i) (h2 : i < 220) :
    betweenClassVariance (histOf bimodalPixels) 10 i = 960000 := by
  unfold betweenClassVariance
  rw [if_neg (by
    rw [bim_wB_mid i h1 h2]
    omega)]
  rw [bim_wB_mid i h1 h2, bim_sumB_mid i h1 h2, bim_totalSum]
  norm_num [classVariance]

theorem bim_maxVariance : maxVariance256 (histOf bimodalPixels) 10 =
    960000 := by
  unfold maxVariance256
  refine le_antisymm ?_ ?_
  · refine foldl_max_le _ 0 960000 (by norm_num) (fun x hx => ?_)
    obtain ⟨i, _, rfl⟩ := List.mem_map.mp hx
    rcases Nat.lt_or_ge i 20 with h | h
    · rw [bim_variance_low i h]
      norm_num
    · rcases Nat.lt_or_ge i 220 with h' | h'
      · rw [bim_variance_mid i h h']
      · rw [bim_variance_high i h']
        norm_num
  · refine mem_le_foldl_max _ 0 _ (List.mem_map.mpr ⟨20, ?_, ?_⟩)
    · exact List.mem_range.mpr (by omega)
    · exact bim_variance_mid 20 le_rfl (by omega)

/-- The Otsu threshold of the bimodal test image is exactly the lower
mode, 20. -/
theorem otsu_bimodal_eq_20 : calculateOtsuThreshold bimodalPixels = 20 := by
  rw [calculateOtsu_eq_spec]
  have hlen : bimodalPixels.length = 10 := rfl
  rw [hlen]
  unfold otsuSpecThreshold
  rw [bim_maxVariance, if_pos (by norm_num)]
  rw [find?_range_eq_some (by omega : (20 : ℕ) < 256)
    (by simp [bim_variance_mid 20 le_rfl (by omega)])
    (fun j hj => by simp [bim_variance_low j hj])]
  rfl

/-- C1 counterexample: for the specified bimodal image (40% of pixels at
intensity 20, 60% at 220), the computed threshold is exactly 20, which
is not strictly between the two modes. -/
theorem otsu_bimodal_not_strictly_between :
    calculateOtsuThreshold bimodalPixels = 20 ∧
    ¬ (20 < calculateOtsuThreshold bimodalPixels ∧
       calculateOtsuThreshold bimodalPixels < 220) := by
  have h := otsu_bimodal_eq_20
  exact ⟨h, by rw [h]; omega⟩

/-- C1 (amended): the automatic threshold equals the first candidate in
0..255 maximizing the between-class variance `wB·wF·(mB−mF)²` over the
256-bin histogram (default 128 when no candidate attains positive
variance); for the 40%-at-20 / 60%-at-220 bimodal image, the computed
threshold is 20 — it equals the lower mode, lying in `[20, 220)` rather
than strictly between the modes. -/
theorem otsu_matches_argmax_spec :
    (∀ pixels : List (Fin 256), calculateOtsuThreshold pixels =
      otsuSpecThreshold (histOf pixels) pixels.length) ∧
    calculateOtsuThreshold bimodalPixels = 20 ∧
    20 ≤ calculateOtsuThreshold bimodalPixels ∧
    calculateOtsuThreshold bimodalPixels < 220 := by
  refine ⟨calculateOtsu_eq_spec, otsu_bimodal_eq_20, ?_, ?_⟩
  · rw [otsu_bimodal_eq_20]
  · rw [otsu_bimodal_eq_20]
    omega

end Scrollrack
